import Mathlib

set_option maxRecDepth 4000

/-!
# Verification of the privy-sdk-go multi-chain transaction adapters

Shallow embedding of the chain-adapter logic of `privy-sdk-go`:
UTXO coin selection and fee estimation, Bitcoin transaction building and
BIP143 per-input signing, DER signature canonicalization, signature
normalization for Cosmos / StarkNet / NEAR / TON, NEAR Borsh serialization,
and the NEAR base58 codec.  Bytes are modelled as `List Nat` (each entry a
byte value), Go `int64` values as `Int`, and Go `uint64`/`uint32` values as
`Nat` with explicit reductions mod `2^w` where the code truncates.
External collaborators (the Privy wallet directory, the signing oracle,
chain RPC endpoints) and external library primitives (btcd's BIP143 digest,
SHA-256, address decoding) are universally quantified parameters, matching
the spec's treatment of them as opaque collaborators.
-/

namespace PrivySDK

/-! ## Bitcoin helper (`chains/bitcoin/bitcoin.go`) -/

/-- An unspent transaction output, as decoded from the explorer API.
`value` is in satoshis (Go `int64`). -/
structure UTXO where
  txid : String
  vout : Nat
  value : Int
deriving DecidableEq, Repr, Inhabited

/-- The loop body of `Helper.selectUTXOs`: accumulate UTXOs in list order,
recompute the estimated fee after each addition, and stop as soon as
`totalInput >= amount + fee`.  Returns `none` where the Go code returns the
insufficient-funds error. -/
def selectLoop (feeRate amount : Int) :
    List UTXO → List UTXO → Int → Option (List UTXO × Int × Int)
  | [], _, _ => none
  | u :: rest, selected, totalInput =>
    let selected' := selected ++ [u]
    let totalInput' := totalInput + u.value
    let vSize : Int := 11 + 68 * (selected'.length : Int) + 31 * 2
    let fee := vSize * feeRate
    if amount + fee ≤ totalInput' then some (selected', totalInput', fee)
    else selectLoop feeRate amount rest selected' totalInput'

/-- Source `Helper.selectUTXOs`: greedy coin selection with linear fee estimation. -/
def selectUTXOs (feeRate : Int) (utxos : List UTXO) (amount : Int) :
    Option (List UTXO × Int × Int) :=
  selectLoop feeRate amount utxos [] 0

/-- The fee charged when `k` inputs are selected:
`(11 + 68*k + 31*2) * feeRate`. -/
def feeFor (feeRate : Int) (k : Nat) : Int :=
  (11 + 68 * (k : Int) + 31 * 2) * feeRate

/-- Sum of the values of a list of UTXOs. -/
def sumVal (l : List UTXO) : Int :=
  (l.map (·.value)).sum

/-! ### DER signature encoding (`derEncodeSignature`, `canonicalizeInt`) -/

/-- The leading-zero stripping loop of `canonicalizeInt`:
`for len(v) > 1 && v[0] == 0 { v = v[1:] }`. -/
def stripZeros : List Nat → List Nat
  | 0 :: b :: rest => stripZeros (b :: rest)
  | l => l

/-- Source `canonicalizeInt`: strip leading zeros, then prepend a `0x00` byte when
the first byte has its high bit set (to keep the ASN.1 INTEGER
non-negative). -/
def canonicalizeInt (b : List Nat) : List Nat :=
  match stripZeros b with
  | [] => []
  | x :: rest => if x &&& 0x80 ≠ 0 then 0 :: x :: rest else x :: rest

/-- Source `derEncodeSignature`: wrap the canonicalized R and S byte strings in an
ASN.1 DER SEQUENCE of two INTEGERs.  Go casts the lengths through `byte`,
hence the mod 256. -/
def derEncodeSignature (r s : List Nat) : List Nat :=
  let rEnc := canonicalizeInt r
  let sEnc := canonicalizeInt s
  let totalLen := 2 + rEnc.length + 2 + sEnc.length
  [0x30, totalLen % 256, 0x02, rEnc.length % 256] ++ rEnc
    ++ [0x02, sEnc.length % 256] ++ sEnc

/-- Modelled from the spec: decoding a DER-encoded signature "back into its
two ASN.1 INTEGER byte fields" (the repository has no decoder; this is the
standard parse of `SEQUENCE { INTEGER r, INTEGER s }` with one-byte
lengths). -/
def derDecode (bs : List Nat) : Option (List Nat × List Nat) :=
  match bs with
  | m1 :: tl :: m2 :: lr :: rest =>
    if m1 = 0x30 ∧ m2 = 0x02 ∧ lr ≤ rest.length then
      let rField := rest.take lr
      match rest.drop lr with
      | m3 :: ls :: rest2 =>
        if m3 = 0x02 ∧ ls = rest2.length ∧ tl = 2 + lr + 2 + ls then
          some (rField, rest2)
        else none
      | _ => none
    else none
  | _ => none

/-! ### Cosmos and StarkNet signature normalization (`chains/cosmos`,
`chains/starknet`) -/

/-- Cosmos `TxRaw` (the three fields the adapter fills in). -/
structure TxRaw where
  bodyBytes : List Nat
  authInfoBytes : List Nat
  signatures : List (List Nat)
deriving DecidableEq, Repr

/-- The recovery-byte strip in `cosmos.Helper.Transfer`:
`if len(sigBytes) == 65 { sigBytes = sigBytes[:64] }`. -/
def cosmosNormalizeSig (sig : List Nat) : List Nat :=
  if sig.length = 65 then sig.take 64 else sig

/-- The `TxRaw` assembly in `cosmos.Helper.Transfer`. -/
def cosmosAssembleTxRaw (bodyBytes authInfoBytes sig : List Nat) : TxRaw :=
  { bodyBytes := bodyBytes
    authInfoBytes := authInfoBytes
    signatures := [cosmosNormalizeSig sig] }

/-- The signature left-padding in `starknet.Helper.Transfer`: pad the hex
string to 128 characters when shorter. -/
def starknetPadSig (sigHex : List Char) : List Char :=
  if sigHex.length < 128 then
    List.replicate (128 - sigHex.length) '0' ++ sigHex
  else sigHex

/-- The r/s split in `starknet.Helper.Transfer`: `r = sigHex[:64]`,
`s = sigHex[64:128]` after padding. -/
def starknetSplitRS (sigHex : List Char) : List Char × List Char :=
  let p := starknetPadSig sigHex
  (p.take 64, (p.drop 64).take 64)

/-! ### NEAR and TON envelope assembly (`chains/near/near.go`,
`chains/ton/ton.go`) -/

/-- The signed-transaction assembly in `near.Helper.Transfer`: serialized
transaction, the Ed25519 key-type byte `0`, then the signature truncated to
64 bytes or zero-padded to 64 bytes. -/
def nearAssembleSignedTx (serialized sig : List Nat) : List Nat :=
  serialized ++ 0 ::
    (if 64 ≤ sig.length then sig.take 64
     else sig ++ List.replicate (64 - sig.length) 0)

/-- The external-message assembly in `ton.Helper.Transfer`:
`externalBody := append(sigBytes, signingMsg...)` — the raw oracle
signature bytes followed by the signing message, with no length
normalization. -/
def tonExternalBody (sig signingMsg : List Nat) : List Nat :=
  sig ++ signingMsg

/-! ### Unimplemented operations (explicit stubs in the source).
Each Go stub is a constant function `return "", fmt.Errorf("... not yet
implemented")`; the error is modelled as `Option String` (`none` = nil). -/

/-- Source `starknet.Helper.TransferERC20`. -/
def starknetTransferERC20 (_walletID _tokenContract _destination _amount : String) :
    String × Option String :=
  ("", some "starknet: TransferERC20 not yet implemented")

/-- Source `sui.Helper.TransferObject`. -/
def suiTransferObject (_walletID _objectID _destination : String) :
    String × Option String :=
  ("", some "sui: TransferObject not yet implemented")

/-- Source `cosmos.Helper.Delegate`. -/
def cosmosDelegate (_walletID _validatorAddr _amount : String) :
    String × Option String :=
  ("", some "cosmos: Delegate not yet implemented")

/-- Source `cosmos.Helper.Undelegate`. -/
def cosmosUndelegate (_walletID _validatorAddr _amount : String) :
    String × Option String :=
  ("", some "cosmos: Undelegate not yet implemented")

/-- Source `stellar.Helper.PaymentWithAsset`. -/
def stellarPaymentWithAsset
    (_walletID _destination _amount _assetCode _assetIssuer : String) :
    String × Option String :=
  ("", some "stellar: PaymentWithAsset not yet implemented")

/-! ### NEAR Borsh serialization (`chains/near/near.go`) -/

/-- Source `borshWriteU32`: 4 bytes little-endian (Go truncates through `uint32`;
extracting 4 little-endian byte digits performs the same truncation). -/
def borshWriteU32 (v : Nat) : List Nat :=
  (List.range 4).map (fun i => v / 256 ^ i % 256)

/-- Source `borshWriteU64`: 8 bytes little-endian. -/
def borshWriteU64 (v : Nat) : List Nat :=
  (List.range 8).map (fun i => v / 256 ^ i % 256)

/-- Source `borshWriteString`: 4-byte little-endian byte length, then the string
bytes (account ids are modelled as their byte lists). -/
def borshWriteString (s : List Nat) : List Nat :=
  borshWriteU32 s.length ++ s

/-- Source `borshWriteU128`: 16 bytes little-endian of the low 128 bits when the
big integer is positive (Go copies the low 16 bytes of `v.Bytes()` in
reverse), all zeros otherwise. -/
def borshWriteU128 (v : Int) : List Nat :=
  if 0 < v then (List.range 16).map (fun i => v.toNat / 256 ^ i % 256)
  else List.replicate 16 0

/-- Source `serializeTransaction`: manual Borsh serialization of a NEAR
transaction carrying a single Transfer action.  Faithful to the Go code:
a public key shorter than 32 bytes contributes no key bytes, and a block
hash shorter than 32 bytes is zero-padded. -/
def serializeTransaction (signerID : List Nat) (pubKey : List Nat)
    (nonce : Nat) (receiverID : List Nat) (blockHash : List Nat)
    (deposit : Int) : List Nat :=
  borshWriteString signerID
    ++ 0 :: (if 32 ≤ pubKey.length then pubKey.take 32 else [])
    ++ borshWriteU64 nonce
    ++ borshWriteString receiverID
    ++ (if 32 ≤ blockHash.length then blockHash.take 32
        else blockHash ++ List.replicate (32 - blockHash.length) 0)
    ++ borshWriteU32 1
    ++ 3 :: borshWriteU128 deposit

/-- Modelled from the spec (the reference Borsh encoder the spec compares
against): `(signerId: u32-len-prefixed string, publicKey: 1-byte keytype +
32 bytes, nonce: u64 LE, receiverId: u32-len-prefixed string, blockHash:
32 bytes, actions: u32 count=1, actionTag=3(Transfer), deposit: u128
LE)`. -/
def refU32LE (v : Nat) : List Nat :=
  [v % 256, v / 256 % 256, v / 256 ^ 2 % 256, v / 256 ^ 3 % 256]

/-- Modelled from the spec: reference u64 little-endian field. -/
def refU64LE (v : Nat) : List Nat :=
  [v % 256, v / 256 % 256, v / 256 ^ 2 % 256, v / 256 ^ 3 % 256,
   v / 256 ^ 4 % 256, v / 256 ^ 5 % 256, v / 256 ^ 6 % 256, v / 256 ^ 7 % 256]

/-- Modelled from the spec: reference u128 little-endian field. -/
def refU128LE (v : Nat) : List Nat :=
  (List.range 16).map (fun i => v / 256 ^ i % 256)

/-- Modelled from the spec: the reference Borsh encoding of a NEAR transfer
transaction, field by field in the spec's order. -/
def refBorshTransferEncoding (signerID : List Nat) (pubKey : List Nat)
    (nonce : Nat) (receiverID : List Nat) (blockHash : List Nat)
    (deposit : Nat) : List Nat :=
  refU32LE signerID.length ++ signerID
    ++ [0] ++ pubKey
    ++ refU64LE nonce
    ++ refU32LE receiverID.length ++ receiverID
    ++ blockHash
    ++ refU32LE 1
    ++ [3]
    ++ refU128LE deposit

/-! ### NEAR base58 codec (`base58Encode`, `base58Decode`) -/

/-- The Bitcoin-style base58 alphabet used by NEAR. -/
def b58Alphabet : List Char :=
  "123456789ABCDEFGHJKLMNPQRSTUVWXYZabcdefghijkmnopqrstuvwxyz".toList

/-- Minimal big-endian base-`b` digit expansion of a natural number
(empty for `0`); this is how both `big.Int.Bytes` (base 256) and the
base58 division loop produce their digits, most significant first. -/
def natDigitsBE (b : Nat) (n : Nat) : List Nat :=
  if h : n = 0 ∨ b ≤ 1 then []
  else natDigitsBE b (n / b) ++ [n % b]
decreasing_by
  push_neg at h
  exact Nat.div_lt_self (Nat.pos_of_ne_zero h.1) (by omega)

/-- Big-endian digit-list evaluation starting from an accumulator; the
shape of both `big.Int.SetBytes` (base 256) and the base58 decode loop. -/
def digitsVal (b : Nat) (acc : Nat) (ds : List Nat) : Nat :=
  ds.foldl (fun a d => a * b + d) acc

/-- Source `base58Encode`: interpret the bytes as a big-endian integer, emit its
base58 digits through the alphabet, then prepend one `'1'` per leading
zero byte. -/
def base58Encode (data : List Nat) : List Char :=
  List.replicate (data.takeWhile (· == 0)).length '1'
    ++ (natDigitsBE 58 (digitsVal 256 0 data)).map (fun d => b58Alphabet.getD d ' ')

/-- The character-consuming loop of `base58Decode`: look each character up
in the alphabet (error on a character that is not there, where `IndexRune`
returns a negative index) and fold into a big integer. -/
def b58DecodeNat (acc : Nat) : List Char → Option Nat
  | [] => some acc
  | c :: rest =>
    let i := b58Alphabet.indexOf c
    if i < b58Alphabet.length then b58DecodeNat (acc * 58 + i) rest else none

/-- Source `base58Decode`: fold the characters into a big integer, take its
big-endian bytes, and prepend one zero byte per leading `'1'`. -/
def base58Decode (s : List Char) : Option (List Nat) :=
  (b58DecodeNat 0 s).map (fun n =>
    List.replicate (s.takeWhile (· == '1')).length 0 ++ natDigitsBE 256 n)

/-! ### Hex decoding (`decodeHex` in each adapter: strip an optional `0x`
prefix, then `hex.DecodeString`) -/

/-- Value of one hex digit character. -/
def hexDigitVal (c : Char) : Option Nat :=
  if '0' ≤ c ∧ c ≤ '9' then some (c.toNat - 48)
  else if 'a' ≤ c ∧ c ≤ 'f' then some (c.toNat - 87)
  else if 'A' ≤ c ∧ c ≤ 'F' then some (c.toNat - 55)
  else none

/-- Source `hex.DecodeString`: pairs of hex digits; fails on an odd length or a
non-hex character. -/
def hexDecodeChars : List Char → Option (List Nat)
  | [] => some []
  | [_] => none
  | c1 :: c2 :: rest =>
    match hexDigitVal c1, hexDigitVal c2, hexDecodeChars rest with
    | some hi, some lo, some bs => some ((16 * hi + lo) :: bs)
    | _, _, _ => none

/-- The shared `decodeHex` helper: `strings.TrimPrefix(s, "0x")` then
`hex.DecodeString`. -/
def decodeHexStr (s : String) : Option (List Nat) :=
  match s.toList with
  | '0' :: 'x' :: rest => hexDecodeChars rest
  | l => hexDecodeChars l

/-! ### Bitcoin transaction building and per-input signing
(`Helper.buildTx`, the signing loop of `Helper.Transfer`,
`Helper.calcWitnessSigHash`) -/

/-- A transaction output (`wire.TxOut`): value in satoshis and the output
script. -/
structure TxOut where
  value : Int
  pkScript : List Nat
deriving DecidableEq, Repr, Inhabited

/-- A transaction input (`wire.TxIn`): previous outpoint (32-byte hash and
output index) and the witness stack. -/
structure TxIn where
  prevTxid : List Nat
  prevVout : Nat
  witness : List (List Nat)
deriving DecidableEq, Repr, Inhabited

/-- A Bitcoin transaction (`wire.MsgTx`).  `wire.NewMsgTx(wire.TxVersion)`
sets version 1 and lock time 0. -/
structure MsgTx where
  version : Int
  txIn : List TxIn
  txOut : List TxOut
  lockTime : Nat
deriving DecidableEq, Repr

/-- Source `Helper.buildTx`: one input per selected UTXO, one payment output, and
a change output only when the change exceeds the 546-satoshi dust
threshold.  `parseTxid` models `chainhash.NewHashFromStr` and
`addrToScript` models `btcutil.DecodeAddress` followed by
`txscript.PayToAddrScript` (both external btcd library calls). -/
def buildTx (parseTxid : String → Option (List Nat))
    (addrToScript : String → Option (List Nat))
    (utxos : List UTXO) (destination changeAddr : String)
    (amount totalInput fee : Int) : Option MsgTx := do
  let ins ← utxos.mapM (fun u =>
    (parseTxid u.txid).map (fun h => TxIn.mk h u.vout []))
  let destScript ← addrToScript destination
  let tx1 : MsgTx := ⟨1, ins, [⟨amount, destScript⟩], 0⟩
  let change := totalInput - amount - fee
  if 546 < change then
    let chgScript ← addrToScript changeAddr
    pure { tx1 with txOut := tx1.txOut ++ [⟨change, chgScript⟩] }
  else
    pure tx1

/-- The P2WPKH script code built in `calcWitnessSigHash` with
`txscript.NewScriptBuilder`: `OP_DUP OP_HASH160 <push-20 pubKeyHash>
OP_EQUALVERIFY OP_CHECKSIG` (the builder emits the direct-push opcode
`0x14` for 20 data bytes). -/
def p2wpkhScriptCode (pubKeyHash : List Nat) : List Nat :=
  [0x76, 0xa9, 0x14] ++ pubKeyHash ++ [0x88, 0xac]

/-- Set the witness stack of input `i` (the Go code mutates
`tx.TxIn[i].Witness` in place). -/
def setWitnessList : List TxIn → Nat → List (List Nat) → List TxIn
  | [], _, _ => []
  | t :: rest, 0, w => { t with witness := w } :: rest
  | t :: rest, n + 1, w => t :: setWitnessList rest n w

/-- The transaction `tx` with the witness of input `i` replaced. -/
def setWitness (tx : MsgTx) (i : Nat) (w : List (List Nat)) : MsgTx :=
  { tx with txIn := setWitnessList tx.txIn i w }

/-- Errors of the signing loop of `bitcoin.Helper.Transfer`. -/
inductive SignErr
  | signFailed
  | decodeSigFailed
deriving DecidableEq, Repr

/-- The per-input signing loop of `bitcoin.Helper.Transfer`.  `bip143`
models the external `txscript.CalcWitnessSigHash` applied to the script
code, the transaction (whose prevout amounts determine the BIP143
midstates), the input index, and that input's previous-output amount.
`oracle` models `client.RawSign` (returning the signature hex, `none` on a
failed call).  Returns the list of digests passed to the oracle, one per
call made, together with the signed transaction on success. -/
def signLoop (bip143 : List Nat → MsgTx → Nat → Int → List Nat)
    (oracle : List Nat → Option String) (pubKeyHash pubKeyBytes : List Nat) :
    Nat → List UTXO → MsgTx → List (List Nat) × Except SignErr MsgTx
  | _, [], tx => ([], .ok tx)
  | i, u :: rest, tx =>
    let digest := bip143 (p2wpkhScriptCode pubKeyHash) tx i u.value
    match oracle digest with
    | none => ([digest], .error .signFailed)
    | some sigHex =>
      match decodeHexStr sigHex with
      | none => ([digest], .error .decodeSigFailed)
      | some sigBytes =>
        let sigBytes := if 64 < sigBytes.length then sigBytes.take 64 else sigBytes
        let derSig := derEncodeSignature (sigBytes.take 32)
          ((sigBytes.drop 32).take 32) ++ [1]
        let tx' := setWitness tx i [derSig, pubKeyBytes]
        let out := signLoop bip143 oracle pubKeyHash pubKeyBytes (i + 1) rest tx'
        (digest :: out.1, out.2)

/-! ### Amount parsing (`strconv.ParseInt`, `strconv.ParseUint`,
`big.Int.SetString`) -/

/-- A non-empty all-decimal-digit string folded to its value. -/
def parseDigits (l : List Char) : Option Nat :=
  if l ≠ [] ∧ l.all (fun c => '0' ≤ c ∧ c ≤ '9') then
    some (l.foldl (fun acc c => acc * 10 + (c.toNat - 48)) 0)
  else none

/-- Source `strconv.ParseInt(s, 10, 64)`: optional sign, decimal digits, 64-bit
signed range check. -/
def parseInt64 (s : String) : Option Int :=
  match s.toList with
  | '+' :: rest =>
    (parseDigits rest).bind fun n =>
      if n ≤ 2 ^ 63 - 1 then some (n : Int) else none
  | '-' :: rest =>
    (parseDigits rest).bind fun n =>
      if n ≤ 2 ^ 63 then some (-(n : Int)) else none
  | l =>
    (parseDigits l).bind fun n =>
      if n ≤ 2 ^ 63 - 1 then some (n : Int) else none

/-- Source `strconv.ParseUint(s, 10, 64)`: decimal digits only (no sign), 64-bit
unsigned range check. -/
def parseUint64 (s : String) : Option Nat :=
  (parseDigits s.toList).bind fun n =>
    if n ≤ 2 ^ 64 - 1 then some n else none

/-- Source `big.Int.SetString(s, 10)`: optional sign, decimal digits, arbitrary
precision. -/
def parseBigInt (s : String) : Option Int :=
  match s.toList with
  | '+' :: rest => (parseDigits rest).map (fun n => (n : Int))
  | '-' :: rest => (parseDigits rest).map (fun n => -(n : Int))
  | l => (parseDigits l).map (fun n => (n : Int))

/-! ### TON message builders (`chains/ton/ton.go`) -/

/-- Big-endian 4-byte field of a `uint32`. -/
def u32BE (v : Nat) : List Nat :=
  [v / 256 ^ 3 % 256, v / 256 ^ 2 % 256, v / 256 % 256, v % 256]

/-- Big-endian 8-byte field of a `uint64`. -/
def u64BE (v : Nat) : List Nat :=
  [v / 256 ^ 7 % 256, v / 256 ^ 6 % 256, v / 256 ^ 5 % 256, v / 256 ^ 4 % 256,
   v / 256 ^ 3 % 256, v / 256 ^ 2 % 256, v / 256 % 256, v % 256]

/-- Go's `uint32(x)` conversion from `int64`: truncation mod `2^32`. -/
def intToU32 (v : Int) : Nat :=
  (v % 2 ^ 32).toNat

/-- The bytes of an ASCII string (Go `[]byte(s)`). -/
def strBytes (s : String) : List Nat :=
  s.toList.map Char.toNat

/-- Source `buildInternalMessage`: destination address bytes followed by the
amount as 8 bytes big-endian (the source's simplified placeholder
structure). -/
def buildInternalMessage (destAddr : String) (amount : Nat) : List Nat :=
  strBytes destAddr ++ u64BE amount

/-- Source `buildSigningMessage`: `wallet_id(4 BE) ‖ valid_until(4 BE) ‖
seqno(4 BE) ‖ op(1)=0 ‖ send_mode(1)=3 ‖ internalMsg`, each 4-byte field
truncated through `uint32`. -/
def buildSigningMessage (walletIDc seqno validUntil : Int)
    (internalMsg : List Nat) : List Nat :=
  u32BE (intToU32 walletIDc) ++ u32BE (intToU32 validUntil)
    ++ u32BE (intToU32 seqno) ++ 0 :: 3 :: internalMsg

/-! ### Transfer control flow with network-call traces
(`bitcoin.Helper.Transfer`, `near.Helper.Transfer`, `ton.Helper.Transfer`)

Each `Transfer` is embedded as a pure function of an environment that
carries the responses of the external collaborators (wallet directory,
chain RPC, signing oracle) and the external library primitives.  The first
component of the result is the ordered trace of network calls the Go code
has issued before returning. -/

/-- A wallet snapshot from the Privy wallet directory. -/
structure Wallet where
  id : String
  address : String
  publicKey : String
  chainType : String
deriving DecidableEq, Repr

/-- One network round-trip made by an adapter. -/
inductive NetCall
  | walletGet
  | fetchUTXOs
  | queryAccessKey
  | queryBlock
  | getSeqno
  | rawSign
  | broadcast
deriving DecidableEq, Repr

/-- Adapter error classes (the Go code wraps each with a chain-name
prefix and step context; only the class matters here). -/
inductive TErr
  | invalidAmount
  | walletLookupFailed
  | decodePubKeyFailed
  | badPubKeyLen
  | fetchUTXOsFailed
  | noUTXOs
  | insufficientFunds
  | buildTxFailed
  | signFailed
  | decodeSigFailed
  | rpcFailed
  | decodeBlockHashFailed
  | broadcastFailed
deriving DecidableEq, Repr

/-- Environment of `bitcoin.Helper.Transfer`: collaborator responses and
external library primitives. -/
structure BtcEnv where
  feeRate : Int
  hash160 : List Nat → List Nat
  parseTxid : String → Option (List Nat)
  addrToScript : String → Option (List Nat)
  bip143 : List Nat → MsgTx → Nat → Int → List Nat
  wallet : Option Wallet
  utxos : Option (List UTXO)
  oracle : List Nat → Option String
  broadcastResp : Option String

/-- Source `bitcoin.Helper.Transfer`: parse amount, look up the wallet, fetch
UTXOs, select coins, build, sign each input, broadcast. -/
def bitcoinTransfer (env : BtcEnv) (_walletID destination amount : String) :
    List NetCall × Except TErr String :=
  match parseInt64 amount with
  | none => ([], .error .invalidAmount)
  | some amountSats =>
    match env.wallet with
    | none => ([.walletGet], .error .walletLookupFailed)
    | some wallet =>
      match decodeHexStr wallet.publicKey with
      | none => ([.walletGet], .error .decodePubKeyFailed)
      | some pubKeyBytes =>
        let pubKeyHash := env.hash160 pubKeyBytes
        match env.utxos with
        | none => ([.walletGet, .fetchUTXOs], .error .fetchUTXOsFailed)
        | some utxos =>
          if utxos.length = 0 then
            ([.walletGet, .fetchUTXOs], .error .noUTXOs)
          else
            match selectUTXOs env.feeRate utxos amountSats with
            | none => ([.walletGet, .fetchUTXOs], .error .insufficientFunds)
            | some (sel, tot, fee) =>
              match buildTx env.parseTxid env.addrToScript sel destination
                  wallet.address amountSats tot fee with
              | none => ([.walletGet, .fetchUTXOs], .error .buildTxFailed)
              | some tx =>
                let out := signLoop env.bip143 env.oracle pubKeyHash
                  pubKeyBytes 0 sel tx
                let calls := [NetCall.walletGet, .fetchUTXOs]
                  ++ out.1.map (fun _ => NetCall.rawSign)
                match out.2 with
                | .error .signFailed => (calls, .error .signFailed)
                | .error .decodeSigFailed => (calls, .error .decodeSigFailed)
                | .ok _signedTx =>
                  match env.broadcastResp with
                  | none => (calls ++ [.broadcast], .error .broadcastFailed)
                  | some txid => (calls ++ [.broadcast], .ok txid)

/-- Environment of `near.Helper.Transfer`. -/
structure NearEnv where
  wallet : Option Wallet
  accessKeyNonce : Option Nat
  blockHashB58 : Option String
  sha256 : List Nat → List Nat
  oracle : List Nat → Option String
  broadcastResp : Option String

/-- Source `near.Helper.Transfer`: wallet lookup, public-key decode and length
check, access-key and block queries, amount parse, Borsh serialize,
SHA-256, sign, assemble, broadcast.  The amount is parsed only after the
wallet lookup and the two RPC queries. -/
def nearTransfer (env : NearEnv) (_walletID destination amount : String) :
    List NetCall × Except TErr String :=
  match env.wallet with
  | none => ([.walletGet], .error .walletLookupFailed)
  | some wallet =>
    match decodeHexStr wallet.publicKey with
    | none => ([.walletGet], .error .decodePubKeyFailed)
    | some pubKeyBytes =>
      if pubKeyBytes.length ≠ 32 then ([.walletGet], .error .badPubKeyLen)
      else
        match env.accessKeyNonce with
        | none => ([.walletGet, .queryAccessKey], .error .rpcFailed)
        | some nonce =>
          match env.blockHashB58 with
          | none => ([.walletGet, .queryAccessKey, .queryBlock], .error .rpcFailed)
          | some blockHashStr =>
            match base58Decode blockHashStr.toList with
            | none => ([.walletGet, .queryAccessKey, .queryBlock],
                .error .decodeBlockHashFailed)
            | some blockHash =>
              match parseBigInt amount with
              | none => ([.walletGet, .queryAccessKey, .queryBlock],
                  .error .invalidAmount)
              | some deposit =>
                let serialized := serializeTransaction (strBytes wallet.address)
                  pubKeyBytes (nonce + 1) (strBytes destination) blockHash deposit
                let hash := env.sha256 serialized
                match env.oracle hash with
                | none => ([.walletGet, .queryAccessKey, .queryBlock, .rawSign],
                    .error .signFailed)
                | some sigHex =>
                  match decodeHexStr sigHex with
                  | none => ([.walletGet, .queryAccessKey, .queryBlock, .rawSign],
                      .error .decodeSigFailed)
                  | some sigBytes =>
                    let _signed := nearAssembleSignedTx serialized sigBytes
                    match env.broadcastResp with
                    | none => ([.walletGet, .queryAccessKey, .queryBlock,
                        .rawSign, .broadcast], .error .broadcastFailed)
                    | some txHash => ([.walletGet, .queryAccessKey, .queryBlock,
                        .rawSign, .broadcast], .ok txHash)

/-- Environment of `ton.Helper.Transfer`.  `now` models `time.Now()` in
Unix seconds. -/
structure TonEnv where
  wallet : Option Wallet
  seqno : Option Int
  now : Int
  sha256 : List Nat → List Nat
  oracle : List Nat → Option String
  sendBocResp : Option String

/-- Source `ton.Helper.Transfer`: wallet lookup, amount parse, seqno query, build
the v4r2 signing message, SHA-256, sign, concatenate signature and
message, broadcast.  The amount is parsed only after the wallet lookup. -/
def tonTransfer (env : TonEnv) (_walletID destination amount : String) :
    List NetCall × Except TErr String :=
  match env.wallet with
  | none => ([.walletGet], .error .walletLookupFailed)
  | some _wallet =>
    match parseUint64 amount with
    | none => ([.walletGet], .error .invalidAmount)
    | some amountNano =>
      match env.seqno with
      | none => ([.walletGet, .getSeqno], .error .rpcFailed)
      | some seqno =>
        let validUntil := env.now + 300
        let internalMsg := buildInternalMessage destination amountNano
        let signingMsg := buildSigningMessage 698983191 seqno validUntil internalMsg
        let hash := env.sha256 signingMsg
        match env.oracle hash with
        | none => ([.walletGet, .getSeqno, .rawSign], .error .signFailed)
        | some sigHex =>
          match decodeHexStr sigHex with
          | none => ([.walletGet, .getSeqno, .rawSign], .error .decodeSigFailed)
          | some sigBytes =>
            let _externalBody := tonExternalBody sigBytes signingMsg
            match env.sendBocResp with
            | none => ([.walletGet, .getSeqno, .rawSign, .broadcast],
                .error .broadcastFailed)
            | some msgHash => ([.walletGet, .getSeqno, .rawSign, .broadcast],
                .ok msgHash)

/-- The witness-independent part of a transaction input. -/
def txInKey (t : TxIn) : List Nat × Nat := (t.prevTxid, t.prevVout)

/-- Two transactions that agree on everything except input witnesses.
The BIP143 digest of the external `txscript.CalcWitnessSigHash` is a
function of exactly this data (witness stacks are not serialized into the
BIP143 preimage). -/
def SameExceptWitness (t t' : MsgTx) : Prop :=
  t.version = t'.version ∧ t.lockTime = t'.lockTime ∧ t.txOut = t'.txOut ∧
  t.txIn.map txInKey = t'.txIn.map txInKey

/-- A NEAR environment in which every collaborator responds, used to
exhibit the order of operations of `near.Helper.Transfer`. -/
def nearEnvAllOk : NearEnv :=
  { wallet := some ⟨"w1", "alice.near",
      "1111111111111111111111111111111111111111111111111111111111111111",
      "near"⟩
    accessKeyNonce := some 5
    blockHashB58 := some "11"
    sha256 := fun l => l
    oracle := fun _ => some "ff"
    broadcastResp := some "txh" }

/-! ## Theorems -/

/-! ### Lemmas about `stripZeros` and `canonicalizeInt` -/

lemma stripZeros_singleton (x : Nat) : stripZeros [x] = [x] := by
  cases x <;> rfl

lemma stripZeros_cons_cons_zero (b : Nat) (r : List Nat) :
    stripZeros (0 :: b :: r) = stripZeros (b :: r) := rfl

lemma stripZeros_cons_ne (x : Nat) (t : List Nat) (hx : x ≠ 0) :
    stripZeros (x :: t) = x :: t := by
  cases t with
  | nil => exact stripZeros_singleton x
  | cons b r =>
    cases x with
    | zero => exact absurd rfl hx
    | succ n => rfl

lemma stripZeros_length_le (l : List Nat) : (stripZeros l).length ≤ l.length := by
  induction l with
  | nil => simp [stripZeros]
  | cons x t ih =>
    cases t with
    | nil => rw [stripZeros_singleton]
    | cons b r =>
      cases x with
      | zero =>
        rw [stripZeros_cons_cons_zero]
        exact le_trans ih (by simp)
      | succ n => rw [stripZeros_cons_ne (n + 1) (b :: r) (Nat.succ_ne_zero n)]

lemma stripZeros_zero_head (l t : List Nat) (h : stripZeros l = 0 :: t) :
    t = [] := by
  induction l with
  | nil => simp [stripZeros] at h
  | cons x r ih =>
    cases r with
    | nil =>
      rw [stripZeros_singleton] at h
      injection h with h1 h2
      exact h2.symm
    | cons b r2 =>
      cases x with
      | zero =>
        rw [stripZeros_cons_cons_zero] at h
        exact ih h
      | succ n =>
        rw [stripZeros_cons_ne (n + 1) (b :: r2) (Nat.succ_ne_zero n)] at h
        injection h with h1 h2
        exact absurd h1 (Nat.succ_ne_zero n)

lemma stripZeros_idem (l : List Nat) : stripZeros (stripZeros l) = stripZeros l := by
  induction l with
  | nil => rfl
  | cons x t ih =>
    cases t with
    | nil => rw [stripZeros_singleton, stripZeros_singleton]
    | cons b r =>
      cases x with
      | zero =>
        rw [stripZeros_cons_cons_zero]
        exact ih
      | succ n =>
        rw [stripZeros_cons_ne (n + 1) (b :: r) (Nat.succ_ne_zero n),
          stripZeros_cons_ne (n + 1) (b :: r) (Nat.succ_ne_zero n)]

lemma canonicalizeInt_of_strip_nil (l : List Nat) (hv : stripZeros l = []) :
    canonicalizeInt l = [] := by
  unfold canonicalizeInt
  rw [hv]

lemma canonicalizeInt_of_strip_cons (l : List Nat) (x : Nat) (rest : List Nat)
    (hv : stripZeros l = x :: rest) :
    canonicalizeInt l =
      if x &&& 0x80 ≠ 0 then 0 :: x :: rest else x :: rest := by
  unfold canonicalizeInt
  rw [hv]

lemma canonicalizeInt_idem (l : List Nat) :
    canonicalizeInt (canonicalizeInt l) = canonicalizeInt l := by
  rcases hv : stripZeros l with _ | ⟨x, rest⟩
  · rw [canonicalizeInt_of_strip_nil l hv, canonicalizeInt_of_strip_nil [] rfl]
  · rw [canonicalizeInt_of_strip_cons l x rest hv]
    by_cases hx : x &&& 0x80 ≠ 0
    · have hxne : x ≠ 0 := by
        intro h0
        rw [h0] at hx
        exact hx rfl
      rw [if_pos hx]
      have hstrip : stripZeros (0 :: x :: rest) = x :: rest := by
        rw [stripZeros_cons_cons_zero, stripZeros_cons_ne x rest hxne]
      rw [canonicalizeInt_of_strip_cons _ x rest hstrip, if_pos hx]
    · rw [if_neg hx]
      rcases Nat.eq_zero_or_pos x with hx0 | hxpos
      · subst hx0
        have hrest : rest = [] := stripZeros_zero_head l rest hv
        subst hrest
        rw [canonicalizeInt_of_strip_cons [0] 0 [] (stripZeros_singleton 0),
          if_neg hx]
      · have hxne : x ≠ 0 := Nat.pos_iff_ne_zero.mp hxpos
        rw [canonicalizeInt_of_strip_cons (x :: rest) x rest
          (stripZeros_cons_ne x rest hxne), if_neg hx]

lemma canonicalizeInt_length_le (l : List Nat) :
    (canonicalizeInt l).length ≤ l.length + 1 := by
  rcases hv : stripZeros l with _ | ⟨x, rest⟩
  · rw [canonicalizeInt_of_strip_nil l hv]
    simp
  · have hlen : (x :: rest).length ≤ l.length := hv ▸ stripZeros_length_le l
    rw [canonicalizeInt_of_strip_cons l x rest hv]
    by_cases hx : x &&& 0x80 ≠ 0
    · rw [if_pos hx]
      simp at hlen ⊢
      omega
    · rw [if_neg hx]
      omega

/-- Decoding an encoded signature recovers the canonicalized fields, as
long as the one-byte length fields do not wrap. -/
lemma derDecode_derEncode (r s : List Nat)
    (hr : (canonicalizeInt r).length ≤ 35) (hs : (canonicalizeInt s).length ≤ 35) :
    derDecode (derEncodeSignature r s) =
      some (canonicalizeInt r, canonicalizeInt s) := by
  set rEnc := canonicalizeInt r with hrEnc
  set sEnc := canonicalizeInt s with hsEnc
  have hshape : derEncodeSignature r s =
      0x30 :: ((2 + rEnc.length + 2 + sEnc.length) % 256) :: 0x02 ::
        (rEnc.length % 256) :: (rEnc ++ 0x02 :: (sEnc.length % 256) :: sEnc) := by
    simp [derEncodeSignature, hrEnc, hsEnc]
  rw [hshape]
  have hrm : rEnc.length % 256 = rEnc.length := Nat.mod_eq_of_lt (by omega)
  have hsm : sEnc.length % 256 = sEnc.length := Nat.mod_eq_of_lt (by omega)
  have htm : (2 + rEnc.length + 2 + sEnc.length) % 256 =
      2 + rEnc.length + 2 + sEnc.length := Nat.mod_eq_of_lt (by omega)
  have hle : rEnc.length % 256 ≤ (rEnc ++ 0x02 :: (sEnc.length % 256) :: sEnc).length := by
    rw [hrm]
    simp
  have htake : (rEnc ++ 0x02 :: (sEnc.length % 256) :: sEnc).take (rEnc.length % 256)
      = rEnc := by
    rw [hrm]
    exact List.take_left rEnc _
  have hdrop : (rEnc ++ 0x02 :: (sEnc.length % 256) :: sEnc).drop (rEnc.length % 256)
      = 0x02 :: (sEnc.length % 256) :: sEnc := by
    rw [hrm]
    exact List.drop_left rEnc _
  simp only [derDecode, htake, hdrop]
  simp [hrm, hsm, htm, hle]

/-- C6: DER encoding is idempotent under canonicalization: for 32-byte R
and S, decoding `derEncodeSignature(r, s)` back into its two ASN.1 INTEGER
byte fields and re-encoding those fields yields identical bytes; a byte
string whose first significant byte has the high bit set gets exactly one
leading `0x00` (a 33-byte R with high bit set round-trips through a
34-byte canonical form), and leading zero bytes beyond that are
stripped. -/
theorem der_idempotent_under_canonicalization (r s : List Nat)
    (hr : r.length = 32) (hs : s.length = 32) :
    (∃ rF sF, derDecode (derEncodeSignature r s) = some (rF, sF) ∧
      derEncodeSignature rF sF = derEncodeSignature r s) ∧
    (∀ (x : Nat) (t : List Nat), (x :: t).length = 33 → x &&& 0x80 ≠ 0 →
      canonicalizeInt (x :: t) = 0 :: x :: t ∧
      (canonicalizeInt (x :: t)).length = 34) ∧
    (∀ (x : Nat) (t : List Nat), canonicalizeInt (0 :: x :: t) =
      canonicalizeInt (x :: t)) := by
  refine ⟨?_, ?_, ?_⟩
  · have hrl : (canonicalizeInt r).length ≤ 35 := by
      have := canonicalizeInt_length_le r
      omega
    have hsl : (canonicalizeInt s).length ≤ 35 := by
      have := canonicalizeInt_length_le s
      omega
    refine ⟨canonicalizeInt r, canonicalizeInt s,
      derDecode_derEncode r s hrl hsl, ?_⟩
    simp [derEncodeSignature, canonicalizeInt_idem]
  · intro x t hlen hbit
    have hxne : x ≠ 0 := by
      intro h0
      rw [h0] at hbit
      exact hbit rfl
    have hcanon : canonicalizeInt (x :: t) = 0 :: x :: t := by
      unfold canonicalizeInt
      rw [stripZeros_cons_ne x t hxne]
      simp [hbit]
    refine ⟨hcanon, ?_⟩
    rw [hcanon]
    simp at hlen ⊢
    omega
  · intro x t
    unfold canonicalizeInt
    rfl

/-- Witness for C6 at concrete 32-byte R and S (R with high bit set, S
with leading zeros). -/
theorem der_idempotent_witness :
    (∃ rF sF,
      derDecode (derEncodeSignature (128 :: List.replicate 31 1)
        (0 :: 0 :: List.replicate 30 5)) = some (rF, sF) ∧
      derEncodeSignature rF sF =
        derEncodeSignature (128 :: List.replicate 31 1)
          (0 :: 0 :: List.replicate 30 5)) ∧
    (∀ (x : Nat) (t : List Nat), (x :: t).length = 33 → x &&& 0x80 ≠ 0 →
      canonicalizeInt (x :: t) = 0 :: x :: t ∧
      (canonicalizeInt (x :: t)).length = 34) ∧
    (∀ (x : Nat) (t : List Nat), canonicalizeInt (0 :: x :: t) =
      canonicalizeInt (x :: t)) :=
  der_idempotent_under_canonicalization (128 :: List.replicate 31 1)
    (0 :: 0 :: List.replicate 30 5) (by decide) (by decide)

/-- C9: every unimplemented operation (StarkNet `TransferERC20`, Sui
`TransferObject`, Cosmos `Delegate` and `Undelegate`, Stellar
`PaymentWithAsset`) returns, for every input, an empty transaction
identifier together with a non-nil error whose message contains
"not yet implemented"; each is a constant function performing no network
call and no side effect. -/
theorem unimplemented_ops_return_not_yet_implemented :
    ∀ a b c d e : String,
      (starknetTransferERC20 a b c d).1 = "" ∧
      (starknetTransferERC20 a b c d).2 =
        some "starknet: TransferERC20 not yet implemented" ∧
      (suiTransferObject a b c).1 = "" ∧
      (suiTransferObject a b c).2 =
        some "sui: TransferObject not yet implemented" ∧
      (cosmosDelegate a b c).1 = "" ∧
      (cosmosDelegate a b c).2 =
        some "cosmos: Delegate not yet implemented" ∧
      (cosmosUndelegate a b c).1 = "" ∧
      (cosmosUndelegate a b c).2 =
        some "cosmos: Undelegate not yet implemented" ∧
      (stellarPaymentWithAsset a b c d e).1 = "" ∧
      (stellarPaymentWithAsset a b c d e).2 =
        some "stellar: PaymentWithAsset not yet implemented" ∧
      "not yet implemented".toList <:+:
        "starknet: TransferERC20 not yet implemented".toList ∧
      "not yet implemented".toList <:+:
        "sui: TransferObject not yet implemented".toList ∧
      "not yet implemented".toList <:+:
        "cosmos: Delegate not yet implemented".toList ∧
      "not yet implemented".toList <:+:
        "cosmos: Undelegate not yet implemented".toList ∧
      "not yet implemented".toList <:+:
        "stellar: PaymentWithAsset not yet implemented".toList := by
  intro a b c d e
  refine ⟨rfl, rfl, rfl, rfl, rfl, rfl, rfl, rfl, rfl, rfl, ?_, ?_, ?_, ?_, ?_⟩
  · exact ⟨"starknet: TransferERC20 ".toList, [], by rfl⟩
  · exact ⟨"sui: TransferObject ".toList, [], by rfl⟩
  · exact ⟨"cosmos: Delegate ".toList, [], by rfl⟩
  · exact ⟨"cosmos: Undelegate ".toList, [], by rfl⟩
  · exact ⟨"stellar: PaymentWithAsset ".toList, [], by rfl⟩

/-- C3: a 65-byte secp256k1 signature reduces to 64 bytes before Cosmos
and StarkNet envelope assembly: the Cosmos adapter places exactly the
first 64 signature bytes into `TxRaw.signatures` when the decoded
signature is 65 bytes, and the StarkNet adapter derives `r` and `s` only
from bytes 0..31 and 32..63 (hex characters 0..63 and 64..127), ignoring
the trailing 65th byte. -/
theorem secp256k1_sig_normalization (body auth sig : List Nat)
    (sigHex : List Char) (h65 : sig.length = 65)
    (h130 : sigHex.length = 130) :
    (cosmosAssembleTxRaw body auth sig).signatures = [sig.take 64] ∧
    (cosmosAssembleTxRaw body auth sig).signatures.head?.map List.length =
      some 64 ∧
    starknetSplitRS sigHex = (sigHex.take 64, (sigHex.drop 64).take 64) ∧
    starknetSplitRS sigHex = starknetSplitRS (sigHex.take 128) := by
  have hc : cosmosNormalizeSig sig = sig.take 64 := by
    simp [cosmosNormalizeSig, h65]
  refine ⟨?_, ?_, ?_, ?_⟩
  · simp [cosmosAssembleTxRaw, hc]
  · simp [cosmosAssembleTxRaw, hc, List.length_take, h65]
  · simp [starknetSplitRS, starknetPadSig, h130]
  · simp [starknetSplitRS, starknetPadSig, h130, List.length_take,
      List.take_take, List.drop_take]

/-- Witness for C3 at a concrete 65-byte signature and a concrete 130
character signature hex string. -/
theorem secp256k1_sig_normalization_witness :
    (cosmosAssembleTxRaw [] [] (List.replicate 65 7)).signatures =
      [(List.replicate 65 7).take 64] ∧
    (cosmosAssembleTxRaw [] [] (List.replicate 65 7)).signatures.head?.map
      List.length = some 64 ∧
    starknetSplitRS (List.replicate 130 'a') =
      ((List.replicate 130 'a').take 64,
        ((List.replicate 130 'a').drop 64).take 64) ∧
    starknetSplitRS (List.replicate 130 'a') =
      starknetSplitRS ((List.replicate 130 'a').take 128) :=
  secp256k1_sig_normalization [] [] (List.replicate 65 7)
    (List.replicate 130 'a') (by decide) (by decide)

/-- C4 counterexample: the claim that TON's external message body is the
64-byte zero-padded signature followed by the signing message is false: a
3-byte oracle signature is used as-is, so the body is 4 bytes, not 65. -/
theorem ton_no_signature_padding_counterexample :
    tonExternalBody [1, 2, 3] [9] = [1, 2, 3, 9] ∧
    tonExternalBody [1, 2, 3] [9] ≠
      ([1, 2, 3] ++ List.replicate 61 0) ++ [9] := by
  constructor
  · rfl
  · decide

/-- C4 amended: NEAR's signed transaction is the serialized transaction,
the Ed25519 tag byte `0x00`, then exactly 64 signature bytes (zero-padded
when the oracle signature is short, truncated when long); TON's external
message body is the raw oracle signature bytes followed by the signing
message, with no padding. -/
theorem near_pads_ton_concatenates (serialized sig msg : List Nat)
    (hshort : sig.length < 64) :
    nearAssembleSignedTx serialized sig =
      serialized ++ 0 :: (sig ++ List.replicate (64 - sig.length) 0) ∧
    (nearAssembleSignedTx serialized sig).length = serialized.length + 65 ∧
    (∀ sig' : List Nat, 64 ≤ sig'.length →
      nearAssembleSignedTx serialized sig' = serialized ++ 0 :: sig'.take 64 ∧
      (nearAssembleSignedTx serialized sig').length = serialized.length + 65) ∧
    tonExternalBody sig msg = sig ++ msg := by
  refine ⟨?_, ?_, ?_, rfl⟩
  · simp [nearAssembleSignedTx, Nat.not_le.mpr hshort]
  · simp [nearAssembleSignedTx, Nat.not_le.mpr hshort]
    omega
  · intro sig' hlong
    refine ⟨by simp [nearAssembleSignedTx, hlong], ?_⟩
    simp [nearAssembleSignedTx, hlong, List.length_take]

/-- Witness for the amended C4 at a concrete 3-byte signature. -/
theorem near_pads_ton_concatenates_witness :
    nearAssembleSignedTx [8] [1, 2, 3] =
      [8] ++ 0 :: ([1, 2, 3] ++ List.replicate 61 0) ∧
    (nearAssembleSignedTx [8] [1, 2, 3]).length = [8].length + 65 ∧
    (∀ sig' : List Nat, 64 ≤ sig'.length →
      nearAssembleSignedTx [8] sig' = [8] ++ 0 :: sig'.take 64 ∧
      (nearAssembleSignedTx [8] sig').length = [8].length + 65) ∧
    tonExternalBody [1, 2, 3] [9] = [1, 2, 3] ++ [9] :=
  near_pads_ton_concatenates [8] [1, 2, 3] [9] (by decide)

/-! ### Borsh field lemmas -/

lemma borshWriteU32_eq (v : Nat) : borshWriteU32 v = refU32LE v := by
  simp [borshWriteU32, refU32LE, List.range_succ]

lemma borshWriteU64_eq (v : Nat) : borshWriteU64 v = refU64LE v := by
  simp [borshWriteU64, refU64LE, List.range_succ]

lemma borshWriteU128_eq (v : Int) (h0 : 0 ≤ v) :
    borshWriteU128 v = refU128LE v.toNat := by
  unfold borshWriteU128 refU128LE
  by_cases hv : 0 < v
  · rw [if_pos hv]
  · have hz : v = 0 := le_antisymm (not_lt.mp hv) h0
    subst hz
    rw [if_neg hv]
    decide

/-- C5: `serializeTransaction` Borsh-encodes a NEAR transfer as exactly
the concatenation of a u32-length-prefixed signer id, key-type byte 0 plus
the 32-byte public key, nonce as u64 LE, u32-length-prefixed receiver id,
the 32-byte block hash, u32 action count 1, action tag 3 (Transfer), and
the deposit as a 16-byte little-endian u128 — byte-identical to the
reference Borsh encoder. -/
theorem near_borsh_matches_reference (signerID pubKey : List Nat)
    (nonce : Nat) (receiverID blockHash : List Nat) (deposit : Int)
    (hpk : pubKey.length = 32) (hbh : blockHash.length = 32)
    (hd0 : 0 ≤ deposit) (_hd : deposit < 2 ^ 128) (_hn : nonce < 2 ^ 64) :
    serializeTransaction signerID pubKey nonce receiverID blockHash deposit =
      refBorshTransferEncoding signerID pubKey nonce receiverID blockHash
        deposit.toNat := by
  have hpk32 : (32 : Nat) ≤ pubKey.length := le_of_eq hpk.symm
  have hbh32 : (32 : Nat) ≤ blockHash.length := le_of_eq hbh.symm
  have hpkt : pubKey.take 32 = pubKey := by
    rw [← hpk]
    exact List.take_length pubKey
  have hbht : blockHash.take 32 = blockHash := by
    rw [← hbh]
    exact List.take_length blockHash
  simp only [serializeTransaction, refBorshTransferEncoding, borshWriteString,
    borshWriteU32_eq, borshWriteU64_eq, borshWriteU128_eq deposit hd0,
    if_pos hpk32, if_pos hbh32, hpkt, hbht, List.append_assoc,
    List.cons_append, List.singleton_append, List.nil_append]

/-- Witness for C5 at the spec's fixed input: signerId "alice.near",
nonce 5, receiverId "bob.near", deposit 100, with a concrete 32-byte
public key and block hash. -/
theorem near_borsh_matches_reference_witness :
    serializeTransaction (strBytes "alice.near") (List.replicate 32 7) 5
        (strBytes "bob.near") (List.replicate 32 9) 100 =
      refBorshTransferEncoding (strBytes "alice.near") (List.replicate 32 7) 5
        (strBytes "bob.near") (List.replicate 32 9) (Int.toNat 100) :=
  near_borsh_matches_reference (strBytes "alice.near") (List.replicate 32 7) 5
    (strBytes "bob.near") (List.replicate 32 9) 100 (by decide) (by decide)
    (by decide) (by decide) (by decide)

/-! ### Coin-selection lemmas -/

lemma sumVal_append (a b : List UTXO) : sumVal (a ++ b) = sumVal a + sumVal b := by
  simp [sumVal]

lemma sumVal_single (u : UTXO) : sumVal [u] = u.value := by
  simp [sumVal]

/-- Loop invariant of `selectLoop`: on success the result is the shortest
satisfying extension of `selected` by a prefix of `rest`; on failure no
extension by a non-empty prefix of `rest` satisfies the fee inequality. -/
lemma selectLoop_spec (feeRate amount : Int) (rest : List UTXO) :
    ∀ (selected : List UTXO) (tot : Int), tot = sumVal selected →
      (∀ sel t f, selectLoop feeRate amount rest selected tot = some (sel, t, f) →
        ∃ k, 1 ≤ k ∧ k ≤ rest.length ∧ sel = selected ++ rest.take k ∧
          t = sumVal sel ∧ f = feeFor feeRate sel.length ∧ amount + f ≤ t ∧
          ∀ j, 1 ≤ j → j < k →
            sumVal (selected ++ rest.take j) <
              amount + feeFor feeRate (selected.length + j)) ∧
      (selectLoop feeRate amount rest selected tot = none →
        ∀ j, 1 ≤ j → j ≤ rest.length →
          sumVal (selected ++ rest.take j) <
            amount + feeFor feeRate (selected.length + j)) := by
  induction rest with
  | nil =>
    intro selected tot _h
    constructor
    · intro sel t f hsome
      simp [selectLoop] at hsome
    · intro _ j hj1 hj2
      simp at hj2
      omega
  | cons u rest' ih =>
    intro selected tot h
    have hfee : (11 + 68 * (((selected ++ [u]).length : Nat) : Int) + 31 * 2)
        * feeRate = feeFor feeRate (selected.length + 1) := by
      simp only [feeFor, List.length_append, List.length_singleton]
    have hunfold : selectLoop feeRate amount (u :: rest') selected tot =
        if amount + feeFor feeRate (selected.length + 1) ≤ tot + u.value then
          some (selected ++ [u], tot + u.value,
            feeFor feeRate (selected.length + 1))
        else
          selectLoop feeRate amount rest' (selected ++ [u]) (tot + u.value) := by
      simp only [selectLoop, hfee]
    have h' : tot + u.value = sumVal (selected ++ [u]) := by
      rw [sumVal_append, sumVal_single, h]
    by_cases hc : amount + feeFor feeRate (selected.length + 1) ≤ tot + u.value
    · rw [hunfold, if_pos hc]
      constructor
      · intro sel t f hsome
        simp only [Option.some.injEq, Prod.mk.injEq] at hsome
        obtain ⟨h1, h2, h3⟩ := hsome
        refine ⟨1, le_refl 1, by simp, ?_, ?_, ?_, ?_, ?_⟩
        · rw [← h1]
          simp
        · rw [← h2, ← h1, h']
        · rw [← h3, ← h1]
          simp
        · rw [← h2, ← h3]
          exact hc
        · intro j hj1 hj2
          omega
      · intro hnone
        simp at hnone
    · rw [hunfold, if_neg hc]
      obtain ⟨ihSome, ihNone⟩ := ih (selected ++ [u]) (tot + u.value) h'
      have hfirst : sumVal (selected ++ (u :: rest').take 1) <
          amount + feeFor feeRate (selected.length + 1) := by
        simp only [List.take_succ_cons, List.take_zero]
        rw [← h']
        omega
      constructor
      · intro sel t f hsome
        obtain ⟨k', hk1, hk2, hsel, ht, hf, hle, hmin⟩ := ihSome sel t f hsome
        refine ⟨k' + 1, by omega, by simp; omega, ?_, ht, hf, hle, ?_⟩
        · rw [hsel]
          simp
        · intro j hj1 hjlt
          obtain ⟨j', rfl⟩ : ∃ j', j = j' + 1 := ⟨j - 1, by omega⟩
          rcases Nat.eq_zero_or_pos j' with hj0 | hjpos
          · subst hj0
            exact hfirst
          · have := hmin j' hjpos (by omega)
            simp only [List.take_succ_cons]
            have harr : selected ++ u :: rest'.take j' =
                (selected ++ [u]) ++ rest'.take j' := by simp
            have hlen : (selected ++ [u]).length + j' =
                selected.length + (j' + 1) := by simp; omega
            rw [harr, ← hlen]
            exact this
      · intro hnone j hj1 hj2
        obtain ⟨j', rfl⟩ : ∃ j', j = j' + 1 := ⟨j - 1, by omega⟩
        rcases Nat.eq_zero_or_pos j' with hj0 | hjpos
        · subst hj0
          exact hfirst
        · have := ihNone hnone j' hjpos (by simp at hj2; omega)
          simp only [List.take_succ_cons]
          have harr : selected ++ u :: rest'.take j' =
              (selected ++ [u]) ++ rest'.take j' := by simp
          have hlen : (selected ++ [u]).length + j' =
              selected.length + (j' + 1) := by simp; omega
          rw [harr, ← hlen]
          exact this

/-- C1: `selectUTXOs` either returns the shortest non-empty prefix of the
UTXO list (accumulated in list order) whose total input covers
`amount + fee` with `fee = (11 + 68*numSelected + 31*2) * feeRate`, or
fails after exhausting the list because no prefix covers it; it never
returns a selection with `totalInput < amount + fee`. -/
theorem selectUTXOs_covers_amount_plus_fee (feeRate amount : Int)
    (utxos : List UTXO) :
    (∀ sel tot fee, selectUTXOs feeRate utxos amount = some (sel, tot, fee) →
      ∃ k, 1 ≤ k ∧ k ≤ utxos.length ∧ sel = utxos.take k ∧
        tot = sumVal sel ∧ fee = feeFor feeRate k ∧ amount + fee ≤ tot ∧
        ∀ j, 1 ≤ j → j < k →
          sumVal (utxos.take j) < amount + feeFor feeRate j) ∧
    (selectUTXOs feeRate utxos amount = none →
      ∀ j, 1 ≤ j → j ≤ utxos.length →
        sumVal (utxos.take j) < amount + feeFor feeRate j) := by
  obtain ⟨hsome, hnone⟩ :=
    selectLoop_spec feeRate amount utxos [] 0 (by simp [sumVal])
  constructor
  · intro sel tot fee hres
    obtain ⟨k, hk1, hk2, hsel, ht, hf, hle, hmin⟩ := hsome sel tot fee hres
    refine ⟨k, hk1, hk2, by simpa using hsel, ht, ?_, hle, ?_⟩
    · rw [hf, hsel]
      simp only [List.nil_append, List.length_take]
      congr 1
      omega
    · intro j hj1 hj2
      simpa using hmin j hj1 hj2
  · intro hres j hj1 hj2
    simpa using hnone hres j hj1 hj2

/-- Witness for C1 at the spec's end-to-end example: one 100000-sat UTXO,
amount 50000, fee rate 10; the selection takes the UTXO with fee
`(11 + 68 + 62) * 10 = 1410`. -/
theorem selectUTXOs_covers_amount_plus_fee_witness :
    selectUTXOs 10 [⟨"a", 0, 100000⟩] 50000 =
      some ([⟨"a", 0, 100000⟩], 100000, 1410) ∧
    ∃ k, 1 ≤ k ∧ k ≤ ([⟨"a", 0, 100000⟩] : List UTXO).length ∧
      ([⟨"a", 0, 100000⟩] : List UTXO) =
        ([⟨"a", 0, 100000⟩] : List UTXO).take k ∧
      (100000 : Int) = sumVal [⟨"a", 0, 100000⟩] ∧ (1410 : Int) = feeFor 10 k ∧
      (50000 : Int) + 1410 ≤ 100000 ∧
      ∀ j, 1 ≤ j → j < k →
        sumVal (([⟨"a", 0, 100000⟩] : List UTXO).take j) <
          50000 + feeFor 10 j := by
  have hres : selectUTXOs 10 [⟨"a", 0, 100000⟩] 50000 =
      some ([⟨"a", 0, 100000⟩], 100000, 1410) := by decide
  exact ⟨hres,
    (selectUTXOs_covers_amount_plus_fee 10 50000 [⟨"a", 0, 100000⟩]).1
      _ _ _ hres⟩

/-! ### Transaction-building lemmas -/

/-- A successful `Option`-monadic `mapM` has one output per input, each
produced by `f` on the corresponding input. -/
lemma mapM_option_spec {α β : Type} [Inhabited α] [Inhabited β]
    (f : α → Option β) (l : List α) :
    ∀ res, l.mapM f = some res →
      res.length = l.length ∧
      ∀ i, i < l.length →
        f (l.getD i default) = some (res.getD i default) := by
  induction l with
  | nil =>
    intro res h
    simp only [List.mapM_nil, pure, Option.some.injEq] at h
    subst h
    refine ⟨rfl, ?_⟩
    intro i hi
    simp at hi
  | cons a t ih =>
    intro res h
    rw [List.mapM_cons] at h
    cases hfa : f a with
    | none =>
      rw [hfa] at h
      simp at h
    | some b =>
      rw [hfa] at h
      simp only [Option.bind_eq_bind, Option.some_bind] at h
      cases hbs : t.mapM f with
      | none =>
        rw [hbs] at h
        simp at h
      | some bs =>
        rw [hbs] at h
        simp only [Option.bind_eq_bind, Option.some_bind, pure,
          Option.some.injEq] at h
        subst h
        obtain ⟨hlen, helem⟩ := ih bs hbs
        refine ⟨by simp [hlen], ?_⟩
        intro i hi
        cases i with
        | zero => simpa using hfa
        | succ n =>
          simp only [List.getD_cons_succ]
          exact helem n (by simpa using hi)

/-- C7: the transaction built by `buildTx` has one P2WPKH input per
selected UTXO (in order, with empty witness) and one payment output of
the requested amount, plus a change output paying
`totalInput - amount - fee` back to the wallet's own address exactly when
that change exceeds the 546-satoshi dust threshold; otherwise it has
exactly one output, the change being absorbed into the fee. -/
theorem buildTx_structure (parseTxid : String → Option (List Nat))
    (addrToScript : String → Option (List Nat)) (utxos : List UTXO)
    (destination changeAddr : String) (amount totalInput fee : Int)
    (tx : MsgTx)
    (h : buildTx parseTxid addrToScript utxos destination changeAddr
      amount totalInput fee = some tx) :
    tx.txIn.length = utxos.length ∧
    (∀ i, i < utxos.length →
      ∃ hash, parseTxid (utxos.getD i default).txid = some hash ∧
        tx.txIn.getD i default =
          ⟨hash, (utxos.getD i default).vout, []⟩) ∧
    (∃ destScript, addrToScript destination = some destScript ∧
      ((546 < totalInput - amount - fee →
        ∃ chgScript, addrToScript changeAddr = some chgScript ∧
          tx.txOut = [⟨amount, destScript⟩,
            ⟨totalInput - amount - fee, chgScript⟩]) ∧
       (¬ 546 < totalInput - amount - fee →
        tx.txOut = [⟨amount, destScript⟩]))) := by
  unfold buildTx at h
  cases hins : utxos.mapM (fun u =>
      (parseTxid u.txid).map (fun hsh => TxIn.mk hsh u.vout [])) with
  | none =>
    rw [hins] at h
    simp at h
  | some ins =>
    rw [hins] at h
    cases hdest : addrToScript destination with
    | none =>
      rw [hdest] at h
      simp at h
    | some destScript =>
      rw [hdest] at h
      simp only [Option.bind_eq_bind, Option.some_bind] at h
      obtain ⟨hlen, helem⟩ := mapM_option_spec _ utxos ins hins
      by_cases hch : 546 < totalInput - amount - fee
      · rw [if_pos hch] at h
        cases hchg : addrToScript changeAddr with
        | none =>
          rw [hchg] at h
          simp at h
        | some chgScript =>
          rw [hchg] at h
          simp only [Option.bind_eq_bind, Option.some_bind, pure,
            Option.some.injEq] at h
          subst h
          refine ⟨by simpa using hlen, ?_, destScript, rfl, ?_, ?_⟩
          · intro i hi
            have := helem i hi
            rw [Option.map_eq_some'] at this
            obtain ⟨hash, hp, hmk⟩ := this
            exact ⟨hash, hp, hmk.symm⟩
          · intro _
            exact ⟨chgScript, rfl, by simp⟩
          · intro hn
            exact absurd hch hn
      · rw [if_neg hch] at h
        simp only [Option.bind_eq_bind, Option.some_bind, pure,
          Option.some.injEq] at h
        subst h
        refine ⟨by simpa using hlen, ?_, destScript, rfl, ?_, ?_⟩
        · intro i hi
          have := helem i hi
          rw [Option.map_eq_some'] at this
          obtain ⟨hash, hp, hmk⟩ := this
          exact ⟨hash, hp, hmk.symm⟩
        · intro hc
          exact absurd hc hch
        · intro _
          rfl

/-- Witness for C7: concrete stub address decoding and txid parsing, one
UTXO, and a change of `100000 - 50000 - 1410 = 48590 > 546` satoshis. -/
theorem buildTx_structure_witness :
    (buildTx (fun _ => some (List.replicate 32 1)) (fun _ => some [5, 6])
        [⟨"a", 0, 100000⟩] "dest" "chg" 50000 100000 1410 = some
          ⟨1, [⟨List.replicate 32 1, 0, []⟩],
            [⟨50000, [5, 6]⟩, ⟨48590, [5, 6]⟩], 0⟩) ∧
    ([⟨List.replicate 32 1, 0, []⟩] : List TxIn).length =
      ([⟨"a", 0, 100000⟩] : List UTXO).length ∧
    (∀ i, i < ([⟨"a", 0, 100000⟩] : List UTXO).length →
      ∃ hash, (fun (_ : String) => some (List.replicate 32 1))
          (([⟨"a", 0, 100000⟩] : List UTXO).getD i default).txid = some hash ∧
        ([⟨List.replicate 32 1, 0, []⟩] : List TxIn).getD i default =
          ⟨hash, (([⟨"a", 0, 100000⟩] : List UTXO).getD i default).vout, []⟩) ∧
    (∃ destScript, (fun (_ : String) => some [5, 6]) "dest" = some destScript ∧
      ((546 < (100000 : Int) - 50000 - 1410 →
        ∃ chgScript, (fun (_ : String) => some [5, 6]) "chg" = some chgScript ∧
          ([⟨50000, [5, 6]⟩, ⟨48590, [5, 6]⟩] : List TxOut) =
            [⟨50000, destScript⟩, ⟨(100000 : Int) - 50000 - 1410, chgScript⟩]) ∧
       (¬ 546 < (100000 : Int) - 50000 - 1410 →
        ([⟨50000, [5, 6]⟩, ⟨48590, [5, 6]⟩] : List TxOut) =
          [⟨50000, destScript⟩]))) := by
  have hb : buildTx (fun _ => some (List.replicate 32 1))
      (fun _ => some [5, 6]) [⟨"a", 0, 100000⟩] "dest" "chg"
      50000 100000 1410 = some
        ⟨1, [⟨List.replicate 32 1, 0, []⟩],
          [⟨50000, [5, 6]⟩, ⟨48590, [5, 6]⟩], 0⟩ := by
    decide
  refine ⟨hb, ?_⟩
  have := buildTx_structure (fun _ => some (List.replicate 32 1))
    (fun _ => some [5, 6]) [⟨"a", 0, 100000⟩] "dest" "chg"
    50000 100000 1410 _ hb
  simpa using this

/-! ### Per-input signing lemmas -/

lemma setWitnessList_map_key (l : List TxIn) (i : Nat) (w : List (List Nat)) :
    (setWitnessList l i w).map txInKey = l.map txInKey := by
  induction l generalizing i with
  | nil => rfl
  | cons t rest ih =>
    cases i with
    | zero => simp [setWitnessList, txInKey]
    | succ n => simp [setWitnessList, ih n]

lemma sameExceptWitness_refl (t : MsgTx) : SameExceptWitness t t :=
  ⟨rfl, rfl, rfl, rfl⟩

lemma sameExceptWitness_setWitness (t t' : MsgTx) (i : Nat)
    (w : List (List Nat)) (h : SameExceptWitness t t') :
    SameExceptWitness t (setWitness t' i w) := by
  obtain ⟨h1, h2, h3, h4⟩ := h
  exact ⟨h1, h2, h3, by rw [h4, setWitness]; exact
    (setWitnessList_map_key t'.txIn i w).symm⟩

/-- Loop invariant of `signLoop`: on success there is exactly one oracle
digest per remaining input, and the digest for the `j`-th remaining input
is the BIP143 hash at absolute index `i0 + j` over that input's own
previous-output amount, computed on (any transaction witness-equivalent
to) the original transaction. -/
lemma signLoop_digests (bip143 : List Nat → MsgTx → Nat → Int → List Nat)
    (oracle : List Nat → Option String) (pubKeyHash pubKeyBytes : List Nat)
    (tx0 : MsgTx)
    (hinv : ∀ code t t' i a, SameExceptWitness t t' →
      bip143 code t i a = bip143 code t' i a)
    (utxos : List UTXO) :
    ∀ (i0 : Nat) (cur : MsgTx), SameExceptWitness tx0 cur →
      ∀ ds txF, signLoop bip143 oracle pubKeyHash pubKeyBytes i0 utxos cur =
          (ds, .ok txF) →
        ds.length = utxos.length ∧
        ∀ j, j < utxos.length →
          ds.getD j default = bip143 (p2wpkhScriptCode pubKeyHash) tx0
            (i0 + j) (utxos.getD j default).value := by
  induction utxos with
  | nil =>
    intro i0 cur _hsw ds txF hrun
    simp only [signLoop, Prod.mk.injEq] at hrun
    obtain ⟨h1, _h2⟩ := hrun
    subst h1
    refine ⟨rfl, ?_⟩
    intro j hj
    simp at hj
  | cons u rest ih =>
    intro i0 cur hsw ds txF hrun
    have hdig : bip143 (p2wpkhScriptCode pubKeyHash) cur i0 u.value =
        bip143 (p2wpkhScriptCode pubKeyHash) tx0 i0 u.value :=
      (hinv _ tx0 cur i0 u.value hsw).symm
    rw [signLoop] at hrun
    cases horc : oracle (bip143 (p2wpkhScriptCode pubKeyHash) cur i0 u.value) with
    | none =>
      rw [horc] at hrun
      simp at hrun
    | some sigHex =>
      rw [horc] at hrun
      dsimp only at hrun
      cases hdec : decodeHexStr sigHex with
      | none =>
        rw [hdec] at hrun
        simp at hrun
      | some sigBytes =>
        rw [hdec] at hrun
        dsimp only at hrun
        simp only [Prod.mk.injEq] at hrun
        obtain ⟨hds, hres⟩ := hrun
        obtain ⟨hl, he⟩ := ih (i0 + 1) _
          (sameExceptWitness_setWitness tx0 cur i0 _ hsw)
          _ txF (by rw [← hres])
        subst hds
        refine ⟨by simp [hl], ?_⟩
        intro j hj
        cases j with
        | zero =>
          simpa [hdig] using hdig
        | succ n =>
          simp only [List.getD_cons_succ]
          have := he n (by simpa using hj)
          rw [this]
          congr 1
          omega

/-- C2: when the per-input signing loop of the Bitcoin `Transfer`
completes, the oracle has been called exactly once per selected input, and
the `i`-th call's digest is the BIP143 witness signature hash computed
with the standard P2WPKH script code over that specific input's own
previous-output amount on the original transaction (inputs are not signed
with a shared hash).  `hinv` states the defining property of the external
BIP143 digest: it does not depend on witness stacks. -/
theorem transfer_signs_each_input_with_own_digest
    (bip143 : List Nat → MsgTx → Nat → Int → List Nat)
    (oracle : List Nat → Option String) (pubKeyHash pubKeyBytes : List Nat)
    (tx0 : MsgTx) (utxos : List UTXO)
    (hinv : ∀ code t t' i a, SameExceptWitness t t' →
      bip143 code t i a = bip143 code t' i a)
    (digests : List (List Nat)) (txF : MsgTx)
    (hrun : signLoop bip143 oracle pubKeyHash pubKeyBytes 0 utxos tx0 =
      (digests, .ok txF)) :
    digests.length = utxos.length ∧
    (∀ i, i < utxos.length →
      digests.getD i default = bip143 (p2wpkhScriptCode pubKeyHash) tx0 i
        (utxos.getD i default).value) ∧
    p2wpkhScriptCode pubKeyHash =
      [0x76, 0xa9, 0x14] ++ pubKeyHash ++ [0x88, 0xac] := by
  obtain ⟨h1, h2⟩ := signLoop_digests bip143 oracle pubKeyHash pubKeyBytes tx0
    hinv utxos 0 tx0 (sameExceptWitness_refl tx0) digests txF hrun
  refine ⟨h1, ?_, rfl⟩
  intro i hi
  simpa using h2 i hi

/-- Witness for C2: a two-input transaction, a digest function that
depends on the input index and amount only (hence trivially
witness-invariant), and an oracle returning the one-byte signature
`0xff`; the two oracle digests carry each input's own index and amount. -/
theorem transfer_signs_each_input_witness :
    signLoop (fun code _ i a => code ++ [i, a.toNat]) (fun _ => some "ff")
        [9] [8] 0 [⟨"a", 0, 7⟩, ⟨"b", 1, 9⟩]
        ⟨1, [⟨[1], 0, []⟩, ⟨[2], 1, []⟩], [], 0⟩ =
      ([[0x76, 0xa9, 0x14, 9, 0x88, 0xac, 0, 7],
        [0x76, 0xa9, 0x14, 9, 0x88, 0xac, 1, 9]],
       .ok ⟨1, [⟨[1], 0, [[48, 6, 2, 2, 0, 255, 2, 0, 1], [8]]⟩,
                ⟨[2], 1, [[48, 6, 2, 2, 0, 255, 2, 0, 1], [8]]⟩], [], 0⟩) ∧
    ([[0x76, 0xa9, 0x14, 9, 0x88, 0xac, 0, 7],
      [0x76, 0xa9, 0x14, 9, 0x88, 0xac, 1, 9]] : List (List Nat)).length =
      ([⟨"a", 0, 7⟩, ⟨"b", 1, 9⟩] : List UTXO).length ∧
    (∀ i, i < ([⟨"a", 0, 7⟩, ⟨"b", 1, 9⟩] : List UTXO).length →
      ([[0x76, 0xa9, 0x14, 9, 0x88, 0xac, 0, 7],
        [0x76, 0xa9, 0x14, 9, 0x88, 0xac, 1, 9]] : List (List Nat)).getD i
          default =
        (fun code (_ : MsgTx) i (a : Int) => code ++ [i, a.toNat])
          (p2wpkhScriptCode [9]) ⟨1, [⟨[1], 0, []⟩, ⟨[2], 1, []⟩], [], 0⟩ i
          (([⟨"a", 0, 7⟩, ⟨"b", 1, 9⟩] : List UTXO).getD i default).value) ∧
    p2wpkhScriptCode [9] = [0x76, 0xa9, 0x14] ++ [9] ++ [0x88, 0xac] := by
  have hrun : signLoop (fun code _ i a => code ++ [i, a.toNat])
      (fun _ => some "ff") [9] [8] 0 [⟨"a", 0, 7⟩, ⟨"b", 1, 9⟩]
      ⟨1, [⟨[1], 0, []⟩, ⟨[2], 1, []⟩], [], 0⟩ =
    ([[0x76, 0xa9, 0x14, 9, 0x88, 0xac, 0, 7],
      [0x76, 0xa9, 0x14, 9, 0x88, 0xac, 1, 9]],
     .ok ⟨1, [⟨[1], 0, [[48, 6, 2, 2, 0, 255, 2, 0, 1], [8]]⟩,
              ⟨[2], 1, [[48, 6, 2, 2, 0, 255, 2, 0, 1], [8]]⟩], [], 0⟩) := by
    rfl
  have hmain := transfer_signs_each_input_with_own_digest
    (fun code _ i a => code ++ [i, a.toNat]) (fun _ => some "ff") [9] [8]
    ⟨1, [⟨[1], 0, []⟩, ⟨[2], 1, []⟩], [], 0⟩ [⟨"a", 0, 7⟩, ⟨"b", 1, 9⟩]
    (fun _ _ _ _ _ _ => rfl) _ _ hrun
  exact ⟨hrun, hmain.1, hmain.2.1, hmain.2.2⟩

/-! ### Base58 codec lemmas -/

lemma natDigitsBE_zero (b : Nat) : natDigitsBE b 0 = [] := by
  rw [natDigitsBE]
  simp

lemma natDigitsBE_step (b n : Nat) (hb : 2 ≤ b) (hn : n ≠ 0) :
    natDigitsBE b n = natDigitsBE b (n / b) ++ [n % b] := by
  rw [natDigitsBE]
  rw [dif_neg]
  push_neg
  exact ⟨hn, by omega⟩

lemma digitsVal_nil (b acc : Nat) : digitsVal b acc [] = acc := rfl

lemma digitsVal_cons (b acc d : Nat) (l : List Nat) :
    digitsVal b acc (d :: l) = digitsVal b (acc * b + d) l := rfl

lemma digitsVal_append (b acc : Nat) (l1 l2 : List Nat) :
    digitsVal b acc (l1 ++ l2) = digitsVal b (digitsVal b acc l1) l2 := by
  simp [digitsVal, List.foldl_append]

lemma digitsVal_replicate_zero (b : Nat) (z : Nat) (l : List Nat) :
    digitsVal b 0 (List.replicate z 0 ++ l) = digitsVal b 0 l := by
  induction z with
  | zero => rfl
  | succ k ih =>
    rw [List.replicate_succ, List.cons_append, digitsVal_cons]
    simpa using ih

/-- Evaluating the big-endian digits of `n` recovers `n`. -/
lemma digitsVal_natDigitsBE (b : Nat) (hb : 2 ≤ b) :
    ∀ n acc, digitsVal b acc (natDigitsBE b n) =
      acc * b ^ (natDigitsBE b n).length + n := by
  intro n
  induction n using Nat.strong_induction_on with
  | _ n ih =>
    intro acc
    rcases eq_or_ne n 0 with rfl | hn
    · rw [natDigitsBE_zero]
      simp [digitsVal]
    · rw [natDigitsBE_step b n hb hn]
      have hlt : n / b < n := Nat.div_lt_self (Nat.pos_of_ne_zero hn) (by omega)
      have h1 : digitsVal b acc (natDigitsBE b (n / b) ++ [n % b]) =
          digitsVal b acc (natDigitsBE b (n / b)) * b + n % b := by
        rw [digitsVal_append]
        rfl
      rw [h1, ih (n / b) hlt acc, List.length_append, List.length_singleton,
        pow_succ]
      have h2 : n / b * b + n % b = n := Nat.div_add_mod' n b
      calc (acc * b ^ (natDigitsBE b (n / b)).length + n / b) * b + n % b
          = acc * (b ^ (natDigitsBE b (n / b)).length * b) +
            (n / b * b + n % b) := by ring
        _ = acc * (b ^ (natDigitsBE b (n / b)).length * b) + n := by rw [h2]

lemma natDigitsBE_lt (b : Nat) (hb : 2 ≤ b) :
    ∀ n, ∀ d ∈ natDigitsBE b n, d < b := by
  intro n
  induction n using Nat.strong_induction_on with
  | _ n ih =>
    intro d hd
    rcases eq_or_ne n 0 with rfl | hn
    · rw [natDigitsBE_zero] at hd
      simp at hd
    · rw [natDigitsBE_step b n hb hn] at hd
      rcases List.mem_append.mp hd with h | h
      · exact ih (n / b) (Nat.div_lt_self (Nat.pos_of_ne_zero hn) (by omega)) d h
      · simp at h
        subst h
        exact Nat.mod_lt n (by omega)

/-- The leading digit of a non-zero number is non-zero. -/
lemma natDigitsBE_head_ne (b : Nat) (hb : 2 ≤ b) :
    ∀ n, n ≠ 0 → ∃ h t, natDigitsBE b n = h :: t ∧ h ≠ 0 := by
  intro n
  induction n using Nat.strong_induction_on with
  | _ n ih =>
    intro hn
    rw [natDigitsBE_step b n hb hn]
    rcases eq_or_ne (n / b) 0 with hq | hq
    · rw [hq, natDigitsBE_zero, List.nil_append]
      have hnb : n < b := (Nat.div_eq_zero_iff (by omega : 0 < b)).mp hq
      exact ⟨n % b, [], rfl, by rw [Nat.mod_eq_of_lt hnb]; exact hn⟩
    · obtain ⟨h, t, hht, hne⟩ :=
        ih (n / b) (Nat.div_lt_self (Nat.pos_of_ne_zero hn) (by omega)) hq
      exact ⟨h, t ++ [n % b], by rw [hht]; rfl, hne⟩

/-- Reconstructing digits from an accumulator-seeded evaluation appends the
remaining digits. -/
lemma natDigitsBE_digitsVal_from (b : Nat) (hb : 2 ≤ b) (l : List Nat)
    (hl : ∀ d ∈ l, d < b) :
    ∀ a, a ≠ 0 → natDigitsBE b (digitsVal b a l) = natDigitsBE b a ++ l := by
  induction l with
  | nil =>
    intro a _
    simp [digitsVal_nil]
  | cons d t ih =>
    intro a ha
    have hd : d < b := hl d (by simp)
    have ha' : a * b + d ≠ 0 := by
      have : 1 ≤ a := Nat.pos_of_ne_zero ha
      have : b ≤ a * b := Nat.le_mul_of_pos_left b this
      omega
    rw [digitsVal_cons, ih (fun x hx => hl x (by simp [hx])) (a * b + d) ha']
    have hstep : natDigitsBE b (a * b + d) = natDigitsBE b a ++ [d] := by
      rw [natDigitsBE_step b (a * b + d) hb ha']
      have hdiv : (a * b + d) / b = a := by
        rw [Nat.add_comm, Nat.add_mul_div_right d a (by omega : 0 < b),
          Nat.div_eq_of_lt hd]
        omega
      have hmod : (a * b + d) % b = d := by
        rw [Nat.add_comm, Nat.add_mul_mod_self_right, Nat.mod_eq_of_lt hd]
      rw [hdiv, hmod]
    rw [hstep, List.append_assoc, List.singleton_append]

/-- A single digit below the base is its own digit expansion. -/
lemma natDigitsBE_single (b : Nat) (hb : 2 ≤ b) (d : Nat) (hd : d < b)
    (hdne : d ≠ 0) : natDigitsBE b d = [d] := by
  rw [natDigitsBE_step b d hb hdne, Nat.div_eq_of_lt hd, natDigitsBE_zero,
    Nat.mod_eq_of_lt hd, List.nil_append]

/-- Digit expansion inverts evaluation on digit lists with a non-zero
leading digit. -/
lemma natDigitsBE_digitsVal (b : Nat) (hb : 2 ≤ b) (h : Nat) (t : List Nat)
    (hh : h ≠ 0) (hl : ∀ d ∈ h :: t, d < b) :
    natDigitsBE b (digitsVal b 0 (h :: t)) = h :: t := by
  rw [digitsVal_cons, Nat.zero_mul, Nat.zero_add,
    natDigitsBE_digitsVal_from b hb t (fun x hx => hl x (by simp [hx])) h hh,
    natDigitsBE_single b hb h (hl h (by simp)) hh, List.singleton_append]

lemma b58Alphabet_length : b58Alphabet.length = 58 := by decide

lemma b58_indexOf_getD : ∀ d, d < 58 →
    b58Alphabet.indexOf (b58Alphabet.getD d ' ') = d := by decide

lemma b58_getD_zero : b58Alphabet.getD 0 ' ' = '1' := by decide

lemma b58_getD_ne_one : ∀ d, d < 58 → d ≠ 0 →
    b58Alphabet.getD d ' ' ≠ '1' := by decide

/-- Decoding the characters of a digit list recovers the accumulated
value. -/
lemma b58DecodeNat_map (l : List Nat) (hl : ∀ d ∈ l, d < 58) :
    ∀ acc, b58DecodeNat acc (l.map (fun d => b58Alphabet.getD d ' ')) =
      some (digitsVal 58 acc l) := by
  induction l with
  | nil =>
    intro acc
    simp [b58DecodeNat, digitsVal_nil]
  | cons d t ih =>
    intro acc
    have hd : d < 58 := hl d (by simp)
    rw [List.map_cons, b58DecodeNat, b58_indexOf_getD d hd]
    rw [if_pos (by rw [b58Alphabet_length]; exact hd)]
    rw [digitsVal_cons]
    exact ih (fun x hx => hl x (by simp [hx])) (acc * 58 + d)

lemma length_takeWhile_ones (z : Nat) (rest : List Char)
    (h : ∀ c' ∈ rest.head?, c' ≠ '1') :
    ((List.replicate z '1' ++ rest).takeWhile (· == '1')).length = z := by
  induction z with
  | zero =>
    cases rest with
    | nil => simp
    | cons c t =>
      have hc : c ≠ '1' := h c (by simp)
      simp [List.takeWhile_cons, hc]
  | succ k ih =>
    rw [List.replicate_succ, List.cons_append]
    simpa [List.takeWhile_cons] using ih

lemma dropWhile_head_not {α : Type} (p : α → Bool) (l : List α) :
    ∀ c ∈ (l.dropWhile p).head?, p c = false := by
  induction l with
  | nil => simp [List.dropWhile]
  | cons a t ih =>
    by_cases hp : p a
    · simpa [List.dropWhile_cons, hp] using ih
    · simp only [List.dropWhile_cons, hp, if_neg]
      intro c hc
      simp at hc
      subst hc
      simpa using hp

/-- C10: the NEAR helper's base58 codec round-trips: decoding the encoding
of any byte list returns exactly that list, leading zero bytes (encoded as
leading `'1'` characters) included. -/
theorem base58_roundtrip (data : List Nat) (hdata : ∀ x ∈ data, x < 256) :
    base58Decode (base58Encode data) = some data := by
  have h256 : (2 : Nat) ≤ 256 := by norm_num
  have h58 : (2 : Nat) ≤ 58 := by norm_num
  set z := (data.takeWhile (· == 0)).length with hz
  set rest := data.dropWhile (· == 0) with hrest
  set n := digitsVal 256 0 data with hn
  set ds := natDigitsBE 58 n with hds
  have htw : data.takeWhile (· == 0) = List.replicate z 0 := by
    rw [hz]
    refine List.eq_replicate_length.mpr ?_
    intro b hb
    have := List.mem_takeWhile_imp hb
    simpa using this
  have hsplit : List.replicate z 0 ++ rest = data := by
    rw [← htw, hrest]
    exact List.takeWhile_append_dropWhile (· == 0) data
  have hrestlt : ∀ x ∈ rest, x < 256 := fun x hx =>
    hdata x (by rw [← hsplit]; exact List.mem_append.mpr (Or.inr hx))
  have hnrest : digitsVal 256 0 rest = n := by
    rw [hn, ← hsplit, digitsVal_replicate_zero]
  have hdslt : ∀ d ∈ ds, d < 58 := natDigitsBE_lt 58 h58 n
  have henc : base58Encode data =
      (List.replicate z 0 ++ ds).map (fun d => b58Alphabet.getD d ' ') := by
    rw [base58Encode, List.map_append, List.map_replicate, b58_getD_zero,
      ← hz, ← hn, ← hds]
  have hdec : b58DecodeNat 0 (base58Encode data) = some n := by
    rw [henc, b58DecodeNat_map _ ?bounds 0]
    case bounds =>
      intro d hd
      rcases List.mem_append.mp hd with h | h
      · have := List.eq_of_mem_replicate h
        omega
      · exact hdslt d h
    rw [digitsVal_replicate_zero]
    have := digitsVal_natDigitsBE 58 h58 n 0
    rw [← hds] at this
    simpa using this
  have hcount : ((base58Encode data).takeWhile (· == '1')).length = z := by
    have henc2 : base58Encode data =
        List.replicate z '1' ++ ds.map (fun d => b58Alphabet.getD d ' ') := by
      rw [base58Encode, ← hz, ← hn, ← hds]
    rw [henc2]
    refine length_takeWhile_ones z _ ?_
    intro c hc
    cases hds' : ds with
    | nil =>
      rw [hds'] at hc
      simp at hc
    | cons h' t' =>
      have hn0 : n ≠ 0 := by
        intro h0
        rw [hds, h0, natDigitsBE_zero] at hds'
        exact List.noConfusion hds'
      obtain ⟨h'', t'', hht, hne⟩ := natDigitsBE_head_ne 58 h58 n hn0
      have hinj : h' = h'' := by
        have hcons : h'' :: t'' = h' :: t' := by
          rw [← hht, ← hds, hds']
        injection hcons with he1 _
        exact he1.symm
      have hh0 : h' ≠ 0 := by
        rw [hinj]
        exact hne
      have hlt : h' < 58 := hdslt h' (by rw [hds']; simp)
      rw [hds'] at hc
      simp only [List.map_cons, List.head?_cons, Option.mem_def,
        Option.some.injEq] at hc
      rw [← hc]
      exact b58_getD_ne_one h' hlt hh0
  have hback : natDigitsBE 256 n = rest := by
    cases hr : rest with
    | nil =>
      rw [hr] at hnrest
      have hn0 : n = 0 := by
        rw [← hnrest]
        rfl
      rw [hn0, natDigitsBE_zero]
    | cons h' t' =>
      rw [hr] at hnrest
      have hh : h' ≠ 0 := by
        have hall := dropWhile_head_not (· == 0) data
        rw [← hrest, hr] at hall
        have hb := hall h' (by simp)
        simpa using hb
      rw [← hnrest]
      exact natDigitsBE_digitsVal 256 h256 h' t' hh
        (fun d hd => hrestlt d (hr ▸ hd))
  rw [base58Decode, hdec, Option.map_some', hcount, hback, hsplit]

/-- Witness for C10 at the source's own test vector: `[0, 0, 1]` encodes
to `"112"` (leading zeros as `'1'`s) and decodes back to `[0, 0, 1]`. -/
theorem base58_roundtrip_witness :
    (∀ x ∈ ([0, 0, 1] : List Nat), x < 256) ∧
    base58Encode [0, 0, 1] = ['1', '1', '2'] ∧
    base58Decode (base58Encode [0, 0, 1]) = some [0, 0, 1] := by
  refine ⟨by decide, ?_, base58_roundtrip [0, 0, 1] (by decide)⟩
  have h0 : digitsVal 256 0 [0, 0, 1] = 1 := rfl
  have h1 : natDigitsBE 58 (digitsVal 256 0 [0, 0, 1]) = [1] := by
    rw [h0, natDigitsBE_step 58 1 (by norm_num) one_ne_zero]
    norm_num [natDigitsBE_zero]
  rw [base58Encode, h1]
  decide

/-! ### Amount-validation order -/

/-- C8 counterexample: the claim that a malformed amount is rejected
before any network call is false for the NEAR adapter: with every
collaborator responding and the unparsable amount `"abc"`, the wallet
lookup and both RPC queries have already been issued when the
invalid-amount error is returned. -/
theorem invalid_amount_after_network_calls_counterexample :
    parseBigInt "abc" = none ∧
    (nearTransfer nearEnvAllOk "w1" "bob.near" "abc").1 =
      [.walletGet, .queryAccessKey, .queryBlock] ∧
    NetCall.walletGet ∈ (nearTransfer nearEnvAllOk "w1" "bob.near" "abc").1 ∧
    (nearTransfer nearEnvAllOk "w1" "bob.near" "abc").2 =
      .error .invalidAmount := by
  have hpk : decodeHexStr
      "1111111111111111111111111111111111111111111111111111111111111111" =
      some (List.replicate 32 17) := by decide
  have hb58 : base58Decode ("11".toList) = some [0, 0] := by
    have hd : b58DecodeNat 0 ("11".toList) = some 0 := by decide
    rw [base58Decode, hd, Option.map_some', natDigitsBE_zero]
    decide
  have hpb : parseBigInt "abc" = none := by decide
  have key : nearTransfer nearEnvAllOk "w1" "bob.near" "abc" =
      ([.walletGet, .queryAccessKey, .queryBlock], .error .invalidAmount) := by
    simp only [nearTransfer, nearEnvAllOk, hpk, hb58, hpb]
    simp
  exact ⟨hpb, by rw [key], by rw [key]; decide, by rw [key]⟩

/-- C8 amended: the Bitcoin adapter detects and rejects a malformed amount
before any network call; the NEAR and TON adapters perform the wallet
lookup first (NEAR also the access-key and block queries), and a
malformed amount is rejected — or an earlier lookup fails — before any
signing or broadcast call is made (for TON also before the seqno
query). -/
theorem invalid_amount_rejected_before_signing
    (benv : BtcEnv) (nenv : NearEnv) (tenv : TonEnv)
    (wid dest amtB amtN amtT : String)
    (hB : parseInt64 amtB = none) (hN : parseBigInt amtN = none)
    (hT : parseUint64 amtT = none) :
    bitcoinTransfer benv wid dest amtB = ([], .error .invalidAmount) ∧
    (NetCall.rawSign ∉ (nearTransfer nenv wid dest amtN).1 ∧
     NetCall.broadcast ∉ (nearTransfer nenv wid dest amtN).1 ∧
     ∃ e, (nearTransfer nenv wid dest amtN).2 = .error e) ∧
    (NetCall.getSeqno ∉ (tonTransfer tenv wid dest amtT).1 ∧
     NetCall.rawSign ∉ (tonTransfer tenv wid dest amtT).1 ∧
     NetCall.broadcast ∉ (tonTransfer tenv wid dest amtT).1 ∧
     ∃ e, (tonTransfer tenv wid dest amtT).2 = .error e) := by
  refine ⟨?_, ?_, ?_⟩
  · unfold bitcoinTransfer
    rw [hB]
  · unfold nearTransfer
    cases hw : nenv.wallet with
    | none => simp [hw]
    | some wallet =>
      cases hpk : decodeHexStr wallet.publicKey with
      | none => simp [hw, hpk]
      | some pubKeyBytes =>
        by_cases hlen : pubKeyBytes.length = 32
        · cases hak : nenv.accessKeyNonce with
          | none => simp [hw, hpk, hlen, hak]
          | some nonce =>
            cases hbh : nenv.blockHashB58 with
            | none => simp [hw, hpk, hlen, hak, hbh]
            | some bh =>
              cases hbd : base58Decode bh.data with
              | none => simp [hw, hpk, hlen, hak, hbh, hbd]
              | some blockHash =>
                simp [hw, hpk, hlen, hak, hbh, hbd, hN]
        · simp [hw, hpk, hlen]
  · unfold tonTransfer
    cases hw : tenv.wallet with
    | none => simp [hw]
    | some wallet => simp [hw, hT]

/-- Witness for the amended C8 at concrete environments and the malformed
amount `"abc"` for all three adapters. -/
theorem invalid_amount_rejected_before_signing_witness :
    parseInt64 "abc" = none ∧ parseBigInt "abc" = none ∧
    parseUint64 "abc" = none ∧
    (bitcoinTransfer
        ⟨10, fun l => l, fun _ => some [1], fun _ => some [2],
          fun _ _ _ _ => [3], some ⟨"w", "addr", "11", "bitcoin"⟩,
          some [⟨"a", 0, 100000⟩], fun _ => some "ff", some "txid"⟩
        "w" "dest" "abc" = ([], .error .invalidAmount)) ∧
    (NetCall.rawSign ∉
      (nearTransfer nearEnvAllOk "w" "dest" "abc").1 ∧
     NetCall.broadcast ∉
      (nearTransfer nearEnvAllOk "w" "dest" "abc").1 ∧
     ∃ e, (nearTransfer nearEnvAllOk "w" "dest" "abc").2 = .error e) ∧
    (NetCall.getSeqno ∉
      (tonTransfer ⟨some ⟨"w", "addr", "11", "ton"⟩, some 3, 1000,
        fun l => l, fun _ => some "ff", some "mh"⟩ "w" "dest" "abc").1 ∧
     NetCall.rawSign ∉
      (tonTransfer ⟨some ⟨"w", "addr", "11", "ton"⟩, some 3, 1000,
        fun l => l, fun _ => some "ff", some "mh"⟩ "w" "dest" "abc").1 ∧
     NetCall.broadcast ∉
      (tonTransfer ⟨some ⟨"w", "addr", "11", "ton"⟩, some 3, 1000,
        fun l => l, fun _ => some "ff", some "mh"⟩ "w" "dest" "abc").1 ∧
     ∃ e, (tonTransfer ⟨some ⟨"w", "addr", "11", "ton"⟩, some 3, 1000,
        fun l => l, fun _ => some "ff", some "mh"⟩ "w" "dest" "abc").2 =
          .error e) := by
  have h1 : parseInt64 "abc" = none := by decide
  have h2 : parseBigInt "abc" = none := by decide
  have h3 : parseUint64 "abc" = none := by decide
  obtain ⟨hb, hn, ht⟩ := invalid_amount_rejected_before_signing
    ⟨10, fun l => l, fun _ => some [1], fun _ => some [2],
      fun _ _ _ _ => [3], some ⟨"w", "addr", "11", "bitcoin"⟩,
      some [⟨"a", 0, 100000⟩], fun _ => some "ff", some "txid"⟩
    nearEnvAllOk
    ⟨some ⟨"w", "addr", "11", "ton"⟩, some 3, 1000,
      fun l => l, fun _ => some "ff", some "mh"⟩
    "w" "dest" "abc" "abc" "abc" h1 h2 h3
  exact ⟨h1, h2, h3, hb, hn, ht⟩

end PrivySDK
